import Mathlib

/-!
Shallow embedding of the Real-Time Interview Summarizer's transcription and
session-stop logic (src/src/components/MainDashboard.jsx, which contains the
`MainDashboard` component and the `useTranscription` hook), together with the
verification of the testable properties stated for it.

The embedding keeps the source's names: `onTranscriptUpdate` /
`onSegmentComplete` are the two segment callbacks installed on the speech
service, `getAllSegments` / `getFullTranscript` are the read-side views,
`pauseListening` / `resumeListening` / `stopListening` / `forceStop` are the
hook actions, and the stop branch of `handleRecordingStateChange` is split at
its suspension point into a synchronous prefix (`stopBegin`) and the awaited
tail (`stopFinish`).  All definitions come first; the lemmas and the claim
theorems follow.
-/

namespace InterviewSummarizer

/--
One unit of recognized speech.  The source's segment objects also carry a
confidence score and a duration; no operation verified here reads those
fields, so they are omitted from the embedding.
-/
structure Segment where
  id : String
  text : String
  timestampMs : Nat
  isFinal : Bool
deriving Repr, DecidableEq

/--
Embeds the `speechService.onTranscriptUpdate` callback (useTranscription): a
final segment leaves the segment list untouched (it only clears the live
interim line); a non-final segment keeps exactly the final entries of the
previous list and appends itself:
`prev => { const filtered = prev.filter(s => s.isFinal); return [...filtered, segment]; }`.
-/
def onTranscriptUpdate (prev : List Segment) (segment : Segment) : List Segment :=
  if segment.isFinal then prev
  else prev.filter (fun s => s.isFinal) ++ [segment]

/--
Embeds the `speechService.onSegmentComplete` callback (useTranscription):
removes every entry sharing the completed segment's id and appends the
segment:
`prev => { const filtered = prev.filter(s => s.id !== segment.id); return [...filtered, segment]; }`.
-/
def onSegmentComplete (prev : List Segment) (segment : Segment) : List Segment :=
  prev.filter (fun s => s.id ≠ segment.id) ++ [segment]

/-- A segment upsert event: an interim update or a final commit. -/
inductive SegmentEvent where
  | update (seg : Segment)
  | complete (seg : Segment)
deriving Repr, DecidableEq

/-- The segment carried by an upsert event. -/
def SegmentEvent.seg : SegmentEvent → Segment
  | .update s => s
  | .complete s => s

/-- Apply one upsert event to the segment list. -/
def applyEvent (prev : List Segment) : SegmentEvent → List Segment
  | .update seg => onTranscriptUpdate prev seg
  | .complete seg => onSegmentComplete prev seg

/-- Apply a sequence of upsert events, oldest first. -/
def applyEvents (prev : List Segment) (evs : List SegmentEvent) : List Segment :=
  evs.foldl applyEvent prev

/-- Whether an event is allowed by the speech service's contract: a
`complete` event always carries a finalized segment. -/
def eventWellFormed : SegmentEvent → Bool
  | .complete s => s.isFinal
  | .update _ => true

/--
The speech service only ever delivers finalized segments through
`onSegmentComplete`; this well-formedness predicate says an event trace
respects that.
-/
def completesAreFinal (evs : List SegmentEvent) : Bool :=
  evs.all eventWellFormed

/--
Embeds `getAllSegments()` (useTranscription):
`transcriptSegments.filter(segment => segment.isFinal)`.
-/
def getAllSegments (transcriptSegments : List Segment) : List Segment :=
  transcriptSegments.filter (fun s => s.isFinal)

/--
Embeds `getFullTranscript()` (useTranscription):
`transcriptSegments.filter(s => s.isFinal).map(s => s.text).join(' ')`.
-/
def getFullTranscript (transcriptSegments : List Segment) : String :=
  String.intercalate " " ((transcriptSegments.filter (fun s => s.isFinal)).map (fun s => s.text))

/-- The interim (non-final) entries of the segment list. -/
def interimSegments (transcriptSegments : List Segment) : List Segment :=
  transcriptSegments.filter (fun s => !s.isFinal)

/-- Whether a segment list is sorted by `timestampMs`. -/
def sortedByTimestamp : List Segment → Bool
  | [] => true
  | [_] => true
  | a :: b :: rest => a.timestampMs ≤ b.timestampMs && sortedByTimestamp (b :: rest)

/-- The segment of the last event in the trace carrying the given id, if any. -/
def lastUpsertFor (evs : List SegmentEvent) (i : String) : Option Segment :=
  evs.foldl (fun acc e => if e.seg.id = i then some e.seg else acc) none

/-- The segment of the last final commit (`complete` event) carrying the given id. -/
def lastCompleteFor (evs : List SegmentEvent) (i : String) : Option Segment :=
  evs.foldl (fun acc e => match e with
    | .complete s => if s.id = i then some s else acc
    | .update _ => acc) none

/-- The segments of the `complete` events of a trace, in arrival order. -/
def completedSegs (evs : List SegmentEvent) : List Segment :=
  evs.filterMap (fun e => match e with
    | .complete s => some s
    | .update _ => none)

/-- One final commit on the final-only view: drop the id, append the segment. -/
def commitStep (acc : List Segment) (s : Segment) : List Segment :=
  acc.filter (fun t => t.id ≠ s.id) ++ [s]

/--
The final-only view determined by a list of final commits alone, in arrival
order: each commit evicts its id and appends at the back.
-/
def commitView (segs : List Segment) : List Segment :=
  segs.foldl commitStep []

/-- The last segment with the given id in a plain segment list, threaded
through an accumulator (the left fold keeps the most recent hit). -/
def lastIdHit (i : String) (segs : List Segment) (a : Option Segment) : Option Segment :=
  segs.foldl (fun acc t => if t.id = i then some t else acc) a

/-- Spec-side single-space join, written by primitive recursion; the code's
`join(' ')` is `String.intercalate " "`, and the two agree (proved below). -/
def joinSpace : List String → String
  | [] => ""
  | [t] => t
  | t :: u :: ts => t ++ " " ++ joinSpace (u :: ts)

/-- Concrete upsert trace: two final commits arriving in reverse timestamp
order followed by a fresh interim guess for id "a". -/
def c1Events : List SegmentEvent :=
  [SegmentEvent.complete { id := "b", text := "beta", timestampMs := 1000, isFinal := true },
   SegmentEvent.complete { id := "a", text := "alpha", timestampMs := 0, isFinal := true },
   SegmentEvent.update { id := "a", text := "alphaNew", timestampMs := 0, isFinal := false }]

/-- Outcome of a call into the speech service: a returned boolean, or a
thrown exception. -/
inductive SvcOutcome where
  | ok (b : Bool)
  | thrown
deriving Repr, DecidableEq

/-- The hook-visible state of `useTranscription`: whether
`speechServiceRef.current` is set, the `isListening` / `isPaused` flags, the
live interim line `currentTranscript`, and the `error` slot. -/
structure HookState where
  hasService : Bool
  isListening : Bool
  isPaused : Bool
  currentTranscript : String
  errorMsg : Option String
deriving Repr, DecidableEq

/--
Embeds `pauseListening` (useTranscription): no-op returning `false` unless a
service is installed, `isListening` holds and `isPaused` does not; otherwise
clears the error, delegates to the service and returns its result, catching
a thrown error into the error slot with result `false`.
-/
def pauseListening (s : HookState) (svc : SvcOutcome) : Bool × HookState :=
  if !s.hasService || !s.isListening || s.isPaused then (false, s)
  else
    match svc with
    | .ok b => (b, { s with errorMsg := none })
    | .thrown => (false, { s with errorMsg := some "Failed to pause speech recognition" })

/--
Embeds `resumeListening` (useTranscription): no-op returning `false` unless
a service is installed and `isPaused` holds; otherwise clears the error,
delegates to the service, catching a thrown error with result `false`.
-/
def resumeListening (s : HookState) (svc : SvcOutcome) : Bool × HookState :=
  if !s.hasService || !s.isPaused then (false, s)
  else
    match svc with
    | .ok b => (b, { s with errorMsg := none })
    | .thrown => (false, { s with errorMsg := some "Failed to resume speech recognition" })

/--
Embeds `stopListening` (useTranscription): returns `false` untouched when no
service is installed; otherwise calls the service's stop and, on both the
normal and the thrown path, force-clears `isListening`, `isPaused` and
`currentTranscript`; a thrown error is recorded and the call returns `false`.
-/
def stopListening (s : HookState) (svc : SvcOutcome) : Bool × HookState :=
  if !s.hasService then (false, s)
  else
    match svc with
    | .ok b =>
        (b, { s with errorMsg := none, isListening := false, isPaused := false,
                     currentTranscript := "" })
    | .thrown =>
        (false, { s with errorMsg := some "Failed to stop speech recognition",
                         isListening := false, isPaused := false,
                         currentTranscript := "" })

/-- A hook state with a service installed, idle (not listening, not paused). -/
def hookIdle : HookState :=
  { hasService := true, isListening := false, isPaused := false,
    currentTranscript := "", errorMsg := none }

/-- A hook state in the middle of dictation: listening with a live interim line. -/
def hookListening : HookState :=
  { hasService := true, isListening := true, isPaused := false,
    currentTranscript := "current guess", errorMsg := none }

/-!
The session-stop machinery of `MainDashboard`: the stop branch of
`handleRecordingStateChange`, its `isStoppingRef` re-entrancy guard, the
`Promise.race` of `forceStop()` against a fixed timeout, and the final
summary / session-save steps.  Promise timing is embedded by tagging each
pending operation with the instant (in ms) at which it settles, `none`
meaning it never does; a race settles at the earliest of its branches.
-/

/-- Deadline of the cleanup race inside `forceStop` (useTranscription): 5000 ms. -/
def forceStopTimeoutMs : Nat := 5000

/-- The dashboard stop branch's race deadline (`handleRecordingStateChange`):
3000 ms. -/
def stopTimeoutMs : Nat := 3000

/-- Observable outcome of the hook's `forceStop`. -/
structure ForceStopOutcome where
  settledAt : Nat
  ok : Bool
  serviceDiscarded : Bool
  isListening : Bool
  isPaused : Bool
  currentTranscript : String
deriving Repr, DecidableEq

/--
Embeds `forceStop` (useTranscription) as a function of the instant at which
the speech service's `cleanup()` resolves (`none` = it hangs forever).  The
hook flags are force-cleared immediately at entry; `cleanup()` is then raced
against a 5000 ms timeout.  If the timeout fires first the promise rejection
is caught: the error is recorded, the service handle is nulled out
(`speechServiceRef.current = null`) and the call resolves `false` — it never
rejects.
-/
def forceStop (cleanupResolvesAt : Option Nat) : ForceStopOutcome :=
  match cleanupResolvesAt with
  | some t =>
      if t < forceStopTimeoutMs then
        { settledAt := t, ok := true, serviceDiscarded := false,
          isListening := false, isPaused := false, currentTranscript := "" }
      else
        { settledAt := forceStopTimeoutMs, ok := false, serviceDiscarded := true,
          isListening := false, isPaused := false, currentTranscript := "" }
  | none =>
      { settledAt := forceStopTimeoutMs, ok := false, serviceDiscarded := true,
        isListening := false, isPaused := false, currentTranscript := "" }

/-- Observable outcome of the dashboard's transcription-stop step. -/
structure StopRaceOutcome where
  proceededAt : Nat
  warned : Bool
  proceeds : Bool
deriving Repr, DecidableEq

/--
The transcription-stop step of `handleRecordingStateChange`'s stop branch:
`forceStop()` is raced against a 3000 ms `'Stop timeout'` rejection inside a
`try`; a rejection is caught and surfaced as a `console.warn` plus a warning
notification, and the handler proceeds to the final summary and session save
either way.
-/
def stopTranscriptionRace (cleanupResolvesAt : Option Nat) : StopRaceOutcome :=
  let fs := forceStop cleanupResolvesAt
  if fs.settledAt ≤ stopTimeoutMs then
    { proceededAt := fs.settledAt, warned := false, proceeds := true }
  else
    { proceededAt := stopTimeoutMs, warned := true, proceeds := true }

/-- The dashboard state relevant to the stop sequence: the
`isRecordingSession` React state, the `isStoppingRef` in-flight guard, and
the number of `storageService.saveMeetingSession` calls made so far. -/
structure DashState where
  isRecordingSession : Bool
  isStopping : Bool
  saveCalls : Nat
deriving Repr, DecidableEq

/--
Synchronous prefix of the stop branch of `handleRecordingStateChange`: it is
entered only when the audio controls report not-recording, the callback's
captured `isRecordingSession` is true, and no stop is already in flight
(`!isStoppingRef.current`); it then raises the in-flight guard and clears
`isRecordingSession` before the first await.  Returns the new state and
whether a stop sequence was started.
-/
def stopBegin (s : DashState) (stateIsRecording : Bool) (capturedRecording : Bool) :
    DashState × Bool :=
  if !stateIsRecording && capturedRecording && !s.isStopping then
    ({ s with isRecordingSession := false, isStopping := true }, true)
  else (s, false)

/--
Awaited tail of the stop branch: stop transcription, optional final summary,
then exactly one call to `storageService.saveMeetingSession` (counted whether
or not the save succeeds — a failure is caught into a notification), and, in
the `finally`, reset of the in-flight guard.
-/
def stopFinish (s : DashState) : DashState :=
  { s with saveCalls := s.saveCalls + 1, isStopping := false }

/-- Number of final segments in the buffer. -/
def finalSegmentCount (transcriptSegments : List Segment) : Nat :=
  (getAllSegments transcriptSegments).length

/--
The final-summary step of the stop branch (`handleRecordingStateChange`):
`if (transcriptionRef.current?.transcriptSegments?.length > 0) { await generateSummary(transcriptSegments) }`;
when issued, the request carries the whole segment list.
-/
def finalSummaryRequest (transcriptSegments : List Segment) : Option (List Segment) :=
  if 0 < transcriptSegments.length then some transcriptSegments else none

/-- A buffer holding a single interim segment and nothing else. -/
def interimOnlyBuffer : List Segment :=
  [{ id := "x", text := "hello", timestampMs := 0, isFinal := false }]

/--
Modelled from the spec: the summarization window builder inside the
`useSummary` hook and its AI service, whose source files are not part of this
snapshot (`MainDashboard` only hands them the raw `transcriptSegments`
list).  Spec §3 (SummaryWindow): "a window is only built from final
segments; interim text never enters a summarization request" — the window
input is the text of the final segments, in stored order.
-/
def buildWindowTexts (transcriptSegments : List Segment) : List String :=
  (transcriptSegments.filter (fun s => s.isFinal)).map (fun s => s.text)

/-- The input handed to the summarizer by the periodic auto-generation path
(`checkForSummaryGeneration` → `autoGenerateSummary(transcriptSegments, …)`). -/
def autoSummaryInput (transcriptSegments : List Segment) : List String :=
  buildWindowTexts transcriptSegments

/-- The input handed to the summarizer by the stop branch's final request
(`generateSummary(transcriptSegments)`), when one is issued. -/
def finalSummaryInput (transcriptSegments : List Segment) : Option (List String) :=
  (finalSummaryRequest transcriptSegments).map buildWindowTexts

/-- A buffer holding one final and one interim segment. -/
def mixedBuffer : List Segment :=
  [{ id := "f", text := "done", timestampMs := 0, isFinal := true },
   { id := "i", text := "pending", timestampMs := 5, isFinal := false }]

-- Basic lemmas about the buffer operations

theorem getAllSegments_update (prev : List Segment) (seg : Segment) :
    getAllSegments (onTranscriptUpdate prev seg) = getAllSegments prev := by
  unfold onTranscriptUpdate getAllSegments
  by_cases h : seg.isFinal
  · simp [h]
  · simp [h, List.filter_append, List.filter_filter]

theorem getAllSegments_complete (prev : List Segment) (seg : Segment)
    (h : seg.isFinal = true) :
    getAllSegments (onSegmentComplete prev seg) = commitStep (getAllSegments prev) seg := by
  unfold onSegmentComplete getAllSegments commitStep
  simp [List.filter_append, List.filter_filter, h]
  congr 1
  funext a
  exact Bool.and_comm _ _

/-- The final-only view of a trace is the arrival-order commit view of its
final commits, folded over the view of the starting buffer. -/
theorem getAllSegments_applyEvents (evs : List SegmentEvent) (prev : List Segment)
    (hwf : completesAreFinal evs = true) :
    getAllSegments (applyEvents prev evs) = (completedSegs evs).foldl commitStep (getAllSegments prev) := by
  induction evs generalizing prev with
  | nil => simp [applyEvents, completedSegs]
  | cons e rest ih =>
    have hcons : eventWellFormed e = true ∧ completesAreFinal rest = true := by
      simpa [completesAreFinal, Bool.and_eq_true] using hwf
    cases e with
    | update seg =>
      have h1 : applyEvents prev (SegmentEvent.update seg :: rest)
          = applyEvents (onTranscriptUpdate prev seg) rest := rfl
      have h2 : completedSegs (SegmentEvent.update seg :: rest) = completedSegs rest := rfl
      rw [h1, h2, ih _ hcons.2, getAllSegments_update]
    | complete seg =>
      have hfin : seg.isFinal = true := hcons.1
      have h1 : applyEvents prev (SegmentEvent.complete seg :: rest)
          = applyEvents (onSegmentComplete prev seg) rest := rfl
      have h2 : completedSegs (SegmentEvent.complete seg :: rest) = seg :: completedSegs rest := rfl
      rw [h1, ih _ hcons.2, getAllSegments_complete _ _ hfin, h2, List.foldl_cons]

theorem lastIdHit_init (i : String) (segs : List Segment) (a : Option Segment) :
    lastIdHit i segs a = (lastIdHit i segs none).elim a some := by
  induction segs generalizing a with
  | nil => simp [lastIdHit]
  | cons t rest ih =>
    have h1 : lastIdHit i (t :: rest) a
        = lastIdHit i rest (if t.id = i then some t else a) := rfl
    have h2 : lastIdHit i (t :: rest) none
        = lastIdHit i rest (if t.id = i then some t else none) := rfl
    rw [h1, h2, ih, ih (if t.id = i then some t else none)]
    cases hfound : lastIdHit i rest none with
    | none => by_cases ht : t.id = i <;> simp [ht]
    | some s => simp

theorem lastCompleteFor_eq_lastIdHit (evs : List SegmentEvent) (i : String)
    (a : Option Segment) :
    evs.foldl (fun acc e => match e with
      | .complete s => if s.id = i then some s else acc
      | .update _ => acc) a = lastIdHit i (completedSegs evs) a := by
  induction evs generalizing a with
  | nil => simp [lastIdHit, completedSegs]
  | cons e rest ih =>
    cases e with
    | update seg =>
      have h2 : completedSegs (SegmentEvent.update seg :: rest) = completedSegs rest := rfl
      rw [List.foldl_cons, h2]
      exact ih a
    | complete seg =>
      have h2 : completedSegs (SegmentEvent.complete seg :: rest)
          = seg :: completedSegs rest := rfl
      rw [List.foldl_cons, h2]
      exact ih _

theorem commitStep_id_nodup (acc : List Segment) (s : Segment)
    (h : (acc.map Segment.id).Nodup) :
    ((commitStep acc s).map Segment.id).Nodup := by
  unfold commitStep
  rw [List.map_append]
  apply List.Nodup.append
  · exact List.Nodup.sublist (List.Sublist.map _ (List.filter_sublist _)) h
  · simp
  · intro x hx hy
    simp at hy
    subst hy
    simp at hx
    obtain ⟨t, ⟨_, ht⟩, hmap⟩ := hx
    exact ht hmap

theorem foldl_commitStep_id_nodup (segs : List Segment) (acc : List Segment)
    (h : (acc.map Segment.id).Nodup) :
    (((segs.foldl commitStep acc)).map Segment.id).Nodup := by
  induction segs generalizing acc with
  | nil => exact h
  | cons t rest ih => exact ih _ (commitStep_id_nodup acc t h)

theorem mem_foldl_commitStep (segs : List Segment) (acc : List Segment) (s : Segment)
    (h : s ∈ segs.foldl commitStep acc) :
    lastIdHit s.id segs none = some s ∨
      (lastIdHit s.id segs none = none ∧ s ∈ acc) := by
  induction segs generalizing acc with
  | nil => exact Or.inr ⟨rfl, h⟩
  | cons t rest ih =>
    have hstep : (t :: rest).foldl commitStep acc = rest.foldl commitStep (commitStep acc t) := rfl
    rw [hstep] at h
    have hhd : lastIdHit s.id (t :: rest) none
        = (lastIdHit s.id rest none).elim (if t.id = s.id then some t else none) some := by
      have : lastIdHit s.id (t :: rest) none
          = lastIdHit s.id rest (if t.id = s.id then some t else none) := rfl
      rw [this, lastIdHit_init]
    rcases ih _ h with hlast | ⟨hnone, hmem⟩
    · left
      rw [hhd, hlast]
      rfl
    · rw [commitStep] at hmem
      rcases List.mem_append.mp hmem with hflt | hsingle
      · have hid : s.id ≠ t.id := by
          have := List.of_mem_filter hflt
          simpa using this
        have hid' : t.id ≠ s.id := fun hh => hid hh.symm
        right
        refine ⟨?_, List.mem_of_mem_filter hflt⟩
        rw [hhd, hnone]
        simp [hid']
      · left
        have hst : s = t := by simpa using hsingle
        subst hst
        rw [hhd, hnone]
        simp

-- Interim-slot lemmas

theorem interimSegments_update_nonfinal (prev : List Segment) (seg : Segment)
    (h : seg.isFinal = false) :
    interimSegments (onTranscriptUpdate prev seg) = [seg] := by
  simp [interimSegments, onTranscriptUpdate, h, List.filter_append, List.filter_filter]

theorem interimSegments_complete (prev : List Segment) (seg : Segment)
    (h : seg.isFinal = true) :
    interimSegments (onSegmentComplete prev seg)
      = (interimSegments prev).filter (fun t => t.id ≠ seg.id) := by
  simp [interimSegments, onSegmentComplete, List.filter_append, h]
  congr 1
  funext a
  exact Bool.and_comm _ _

theorem interimSegments_applyEvents_le_one (evs : List SegmentEvent) (prev : List Segment)
    (hwf : completesAreFinal evs = true)
    (h : (interimSegments prev).length ≤ 1) :
    (interimSegments (applyEvents prev evs)).length ≤ 1 := by
  induction evs generalizing prev with
  | nil => exact h
  | cons e rest ih =>
    have hcons : eventWellFormed e = true ∧ completesAreFinal rest = true := by
      simpa [completesAreFinal, Bool.and_eq_true] using hwf
    have hstep : applyEvents prev (e :: rest) = applyEvents (applyEvent prev e) rest := rfl
    rw [hstep]
    apply ih _ hcons.2
    cases e with
    | update seg =>
      by_cases hf : seg.isFinal
      · simpa [applyEvent, onTranscriptUpdate, hf] using h
      · have hrw := interimSegments_update_nonfinal prev seg (by simpa using hf)
        have : applyEvent prev (SegmentEvent.update seg) = onTranscriptUpdate prev seg := rfl
        rw [this, hrw]
        simp
    | complete seg =>
      have hfin : seg.isFinal = true := hcons.1
      have : applyEvent prev (SegmentEvent.complete seg) = onSegmentComplete prev seg := rfl
      rw [this, interimSegments_complete prev seg hfin]
      exact le_trans (List.length_filter_le _ _) h

-- The single-space join refinement

theorem joinSpace_go (l : List String) :
    ∀ acc, String.intercalate.go acc " " l = joinSpace (acc :: l) := by
  induction l with
  | nil => intro acc; rfl
  | cons b ts ih =>
    intro acc
    have hgo : String.intercalate.go acc " " (b :: ts)
        = String.intercalate.go (acc ++ " " ++ b) " " ts := rfl
    rw [hgo, ih]
    cases ts with
    | nil => rfl
    | cons c ts' =>
      show (acc ++ " " ++ b) ++ " " ++ joinSpace (c :: ts')
          = acc ++ " " ++ (b ++ " " ++ joinSpace (c :: ts'))
      simp [String.append_assoc]

theorem intercalate_space_eq_joinSpace (l : List String) :
    String.intercalate " " l = joinSpace l := by
  cases l with
  | nil => rfl
  | cons a as => exact joinSpace_go as a

-- Claim theorems

/--
C1, counterexample.  The claim states that after any sequence of upserts the
final view `getAllSegments()` is sorted by `timestampMs` and holds, for each
id, the text of the latest upsert with that id.  Both parts fail on
`c1Events`: the view keeps arrival order (the segment with timestamp 1000
stays in front of the one with timestamp 0), and the entry for "a" still
carries the committed text even though a later interim upsert for "a"
carried different text.
-/
theorem claim_c1_counterexample :
    ¬ (sortedByTimestamp (getAllSegments (applyEvents [] c1Events)) = true) ∧
    ¬ (∀ s ∈ getAllSegments (applyEvents [] c1Events),
        (lastUpsertFor c1Events s.id).map Segment.text = some s.text) := by
  constructor
  · decide
  · decide

/--
C1, amended.  For every well-formed upsert trace (final commits carry
`isFinal = true`), the final view `getAllSegments()` contains no two entries
with the same id, each entry is exactly the latest final commit with its id
(so the latest final upsert for an id wins), and the view is the
arrival-order commit view of the final commits — each commit evicts its id
and appends at the back; the view is not, in general, sorted by
`timestampMs`.
-/
theorem claim_c1_amended (evs : List SegmentEvent)
    (hwf : completesAreFinal evs = true) :
    ((getAllSegments (applyEvents [] evs)).map Segment.id).Nodup ∧
    (∀ s ∈ getAllSegments (applyEvents [] evs), lastCompleteFor evs s.id = some s) ∧
    getAllSegments (applyEvents [] evs) = commitView (completedSegs evs) := by
  have hview : getAllSegments (applyEvents [] evs)
      = (completedSegs evs).foldl commitStep [] := by
    have h := getAllSegments_applyEvents evs [] hwf
    simpa [getAllSegments] using h
  refine ⟨?_, ?_, ?_⟩
  · rw [hview]
    exact foldl_commitStep_id_nodup _ _ (by simp)
  · intro s hs
    rw [hview] at hs
    rcases mem_foldl_commitStep _ _ _ hs with hlast | ⟨_, habs⟩
    · exact (lastCompleteFor_eq_lastIdHit evs s.id none).trans hlast
    · simp at habs
  · rw [hview]
    rfl

/-- C1, witness: the amended statement instantiated at the concrete trace. -/
theorem claim_c1_amended_witness :
    completesAreFinal c1Events = true ∧
    (((getAllSegments (applyEvents [] c1Events)).map Segment.id).Nodup ∧
     (∀ s ∈ getAllSegments (applyEvents [] c1Events),
        lastCompleteFor c1Events s.id = some s) ∧
     getAllSegments (applyEvents [] c1Events) = commitView (completedSegs c1Events)) :=
  ⟨by decide, claim_c1_amended c1Events (by decide)⟩

/--
C2: from a recording session with no stop in flight, a stop request starts
the stop sequence; any second stop request arriving while that stop is in
flight is a complete no-op (whatever recording flag its stale closure
captured), the finished stop has made exactly one `saveMeetingSession` call,
and a further stop request after the stop completed is again a no-op — so
one session stop produces exactly one save call.
-/
theorem claim_c2_stop_idempotent (s : DashState) (r c : Bool)
    (hrec : s.isRecordingSession = true) (hstop : s.isStopping = false) :
    (stopBegin s false s.isRecordingSession).2 = true ∧
    stopBegin (stopBegin s false s.isRecordingSession).1 r c
      = ((stopBegin s false s.isRecordingSession).1, false) ∧
    (stopFinish (stopBegin s false s.isRecordingSession).1).saveCalls = s.saveCalls + 1 ∧
    stopBegin (stopFinish (stopBegin s false s.isRecordingSession).1) false
        (stopFinish (stopBegin s false s.isRecordingSession).1).isRecordingSession
      = (stopFinish (stopBegin s false s.isRecordingSession).1, false) := by
  unfold stopBegin stopFinish
  simp [hrec, hstop]

/-- C2, witness: the idempotent-stop statement at a concrete session state. -/
theorem claim_c2_stop_idempotent_witness :
    (stopBegin ⟨true, false, 0⟩ false true).2 = true ∧
    stopBegin (stopBegin ⟨true, false, 0⟩ false true).1 false true
      = ((stopBegin ⟨true, false, 0⟩ false true).1, false) ∧
    (stopFinish (stopBegin ⟨true, false, 0⟩ false true).1).saveCalls = 1 :=
  ⟨(claim_c2_stop_idempotent ⟨true, false, 0⟩ false true rfl rfl).1,
   (claim_c2_stop_idempotent ⟨true, false, 0⟩ false true rfl rfl).2.1,
   (claim_c2_stop_idempotent ⟨true, false, 0⟩ false true rfl rfl).2.2.1⟩

/--
C3: even if the speech source's cleanup never resolves, the stop sequence
proceeds within the dashboard's stop deadline — for every cleanup behaviour
the handler proceeds no later than `stopTimeoutMs`; on a hung cleanup the
timeout rejection is swallowed and surfaced only as a warning, and the
hook's own race then discards the hung service handle, with the hook already
forced out of the listening state.
-/
theorem claim_c3_stop_deadline :
    (∀ cleanupResolvesAt : Option Nat,
      (stopTranscriptionRace cleanupResolvesAt).proceededAt ≤ stopTimeoutMs ∧
      (stopTranscriptionRace cleanupResolvesAt).proceeds = true) ∧
    ((stopTranscriptionRace none).proceededAt = stopTimeoutMs ∧
     (stopTranscriptionRace none).warned = true) ∧
    ((forceStop none).serviceDiscarded = true ∧
     (forceStop none).settledAt = forceStopTimeoutMs ∧
     (forceStop none).isListening = false ∧
     (forceStop none).isPaused = false) := by
  refine ⟨?_, by decide, by decide⟩
  intro c
  by_cases h : (forceStop c).settledAt ≤ stopTimeoutMs <;>
    simp [stopTranscriptionRace, h]

/--
C4, counterexample.  The claim states the stop branch issues its last
summarization request iff the buffer holds at least one final segment; but
the code's guard counts all segments, so a buffer holding only an interim
segment still triggers the request while holding zero final segments.
-/
theorem claim_c4_counterexample :
    ¬ ((finalSummaryRequest interimOnlyBuffer).isSome = true
        ↔ 0 < finalSegmentCount interimOnlyBuffer) := by
  decide

/--
C4, amended: the stop branch issues its last summarization request iff the
buffer is non-empty — holds at least one segment, interim or final; in
particular the request is issued whenever at least one final segment is
present.
-/
theorem claim_c4_amended (transcriptSegments : List Segment) :
    ((finalSummaryRequest transcriptSegments).isSome = true ↔ transcriptSegments ≠ []) ∧
    (0 < finalSegmentCount transcriptSegments →
      (finalSummaryRequest transcriptSegments).isSome = true) := by
  constructor
  · constructor
    · intro hsome hnil
      subst hnil
      simp [finalSummaryRequest] at hsome
    · intro hne
      have h : 0 < transcriptSegments.length := List.length_pos.mpr hne
      simp [finalSummaryRequest, h]
  · intro h
    have h1 : 0 < transcriptSegments.length :=
      lt_of_lt_of_le h (List.length_filter_le _ _)
    simp [finalSummaryRequest, h1]

/-- C4, witness: a buffer with one final segment does get the last request. -/
theorem claim_c4_amended_witness :
    0 < finalSegmentCount [({ id := "f", text := "hello", timestampMs := 0, isFinal := true } : Segment)] ∧
    (finalSummaryRequest [({ id := "f", text := "hello", timestampMs := 0, isFinal := true } : Segment)]).isSome = true :=
  ⟨by decide,
   (claim_c4_amended [{ id := "f", text := "hello", timestampMs := 0, isFinal := true }]).2 (by decide)⟩

/--
C5: every text in the input handed to the summarizer — by the periodic
auto-generation path or by the stop branch's final request — is the text of
a final segment of the buffer; the interim entries contribute nothing, so
the input coincides with the one computed from the final-only view.
-/
theorem claim_c5_final_segments_only (transcriptSegments : List Segment) :
    (∀ t ∈ autoSummaryInput transcriptSegments,
      ∃ s ∈ transcriptSegments, s.isFinal = true ∧ s.text = t) ∧
    (∀ w, finalSummaryInput transcriptSegments = some w →
      ∀ t ∈ w, ∃ s ∈ transcriptSegments, s.isFinal = true ∧ s.text = t) ∧
    autoSummaryInput transcriptSegments
      = autoSummaryInput (getAllSegments transcriptSegments) := by
  have hmem : ∀ t ∈ buildWindowTexts transcriptSegments,
      ∃ s ∈ transcriptSegments, s.isFinal = true ∧ s.text = t := by
    intro t ht
    simp [buildWindowTexts] at ht
    obtain ⟨s, ⟨hmem, hfin⟩, htext⟩ := ht
    exact ⟨s, hmem, hfin, htext⟩
  refine ⟨hmem, ?_, ?_⟩
  · intro w hw
    have hwin : w = buildWindowTexts transcriptSegments := by
      unfold finalSummaryInput finalSummaryRequest at hw
      by_cases h : 0 < transcriptSegments.length
      · simp [h] at hw
        exact hw.symm
      · simp [h] at hw
    subst hwin
    exact hmem
  · simp [autoSummaryInput, buildWindowTexts, getAllSegments, List.filter_filter]

/-- C5, witness: on a mixed buffer, the one window text is a final segment's. -/
theorem claim_c5_final_segments_only_witness :
    "done" ∈ autoSummaryInput mixedBuffer ∧
    (∃ s ∈ mixedBuffer, s.isFinal = true ∧ s.text = "done") :=
  ⟨by decide, (claim_c5_final_segments_only mixedBuffer).1 "done" (by decide)⟩

/--
C6: upserting a non-final segment evicts every previously held non-final
segment regardless of id and installs the new one as the sole interim entry,
and consequently after any well-formed upsert trace from the empty buffer the
segment collection holds at most one interim entry.
-/
theorem claim_c6_sole_interim :
    (∀ (prev : List Segment) (seg : Segment), seg.isFinal = false →
      interimSegments (onTranscriptUpdate prev seg) = [seg]) ∧
    (∀ evs : List SegmentEvent, completesAreFinal evs = true →
      (interimSegments (applyEvents [] evs)).length ≤ 1) := by
  constructor
  · exact interimSegments_update_nonfinal
  · intro evs hwf
    exact interimSegments_applyEvents_le_one evs [] hwf (by simp [interimSegments])

/-- C6, witness: the sole-interim statement at a concrete buffer and trace. -/
theorem claim_c6_sole_interim_witness :
    interimSegments (onTranscriptUpdate
      [{ id := "p", text := "old guess", timestampMs := 5, isFinal := false }]
      { id := "q", text := "new guess", timestampMs := 9, isFinal := false })
        = [{ id := "q", text := "new guess", timestampMs := 9, isFinal := false }] ∧
    (interimSegments (applyEvents [] c1Events)).length ≤ 1 :=
  ⟨claim_c6_sole_interim.1 _ _ rfl, claim_c6_sole_interim.2 c1Events (by decide)⟩

/--
C7: `getFullTranscript()` is the single-space join of the texts of the final
segments in stored order, it never depends on interim entries, and on an
interim-only buffer it returns the empty string.
-/
theorem claim_c7_full_transcript (transcriptSegments : List Segment) :
    getFullTranscript transcriptSegments
        = joinSpace ((getAllSegments transcriptSegments).map (fun s => s.text)) ∧
    getFullTranscript transcriptSegments
        = getFullTranscript (getAllSegments transcriptSegments) ∧
    ((∀ s ∈ transcriptSegments, s.isFinal = false) →
      getFullTranscript transcriptSegments = "") := by
  refine ⟨?_, ?_, ?_⟩
  · unfold getFullTranscript getAllSegments
    exact intercalate_space_eq_joinSpace _
  · simp [getFullTranscript, getAllSegments, List.filter_filter]
  · intro h
    have hnil : transcriptSegments.filter (fun s => s.isFinal) = [] := by
      rw [List.filter_eq_nil_iff]
      intro a ha
      simp [h a ha]
    rw [getFullTranscript, hnil]
    rfl

/-- C7, witness: an interim-only buffer yields the empty transcript. -/
theorem claim_c7_full_transcript_witness :
    (∀ s ∈ interimOnlyBuffer, s.isFinal = false) ∧
    getFullTranscript interimOnlyBuffer = "" :=
  ⟨by decide, (claim_c7_full_transcript interimOnlyBuffer).2.2 (by decide)⟩

/--
C8: if a segment is upserted as interim and later re-upserted with the same
id as a final segment with corrected text, the final view holds exactly one
entry for that id, namely the corrected final segment.
-/
theorem claim_c8_interim_promoted (prev : List Segment) (x y : Segment)
    (hx : x.isFinal = false) (hy : y.isFinal = true) (hid : y.id = x.id) :
    (getAllSegments (onSegmentComplete (onTranscriptUpdate prev x) y)).filter
        (fun s => s.id = x.id) = [y] := by
  have h1 : onTranscriptUpdate prev x = prev.filter (fun s => s.isFinal) ++ [x] := by
    simp [onTranscriptUpdate, hx]
  rw [h1, getAllSegments_complete _ _ hy]
  have hA : getAllSegments (prev.filter (fun s => s.isFinal) ++ [x])
      = prev.filter (fun s => s.isFinal) := by
    unfold getAllSegments
    rw [List.filter_append]
    simp [hx, List.filter_filter]
  rw [hA]
  unfold commitStep
  rw [List.filter_append]
  have h2 : ((prev.filter (fun s => s.isFinal)).filter (fun t => t.id ≠ y.id)).filter
      (fun s => s.id = x.id) = [] := by
    rw [List.filter_eq_nil_iff]
    intro a ha
    have hne : a.id ≠ y.id := by
      have h3 := List.of_mem_filter ha
      simpa using h3
    rw [hid] at hne
    simpa using hne
  rw [h2]
  simp [hid]

/-- C8, witness: the promoted-segment statement at concrete segments. -/
theorem claim_c8_interim_promoted_witness :
    (getAllSegments (onSegmentComplete
        (onTranscriptUpdate [] { id := "X", text := "draft", timestampMs := 7, isFinal := false })
        { id := "X", text := "corrected", timestampMs := 7, isFinal := true })).filter
      (fun s => s.id = "X")
      = [{ id := "X", text := "corrected", timestampMs := 7, isFinal := true }] :=
  claim_c8_interim_promoted []
    { id := "X", text := "draft", timestampMs := 7, isFinal := false }
    { id := "X", text := "corrected", timestampMs := 7, isFinal := true } rfl rfl rfl

/--
C9: `pauseListening` returns `false` and leaves the state untouched unless
the hook is currently listening and not paused, and `resumeListening`
returns `false` and leaves the state untouched unless the hook is currently
paused — whatever the speech service would do.
-/
theorem claim_c9_pause_resume_noop :
    (∀ (s : HookState) (svc : SvcOutcome), ¬(s.isListening = true ∧ s.isPaused = false) →
      pauseListening s svc = (false, s)) ∧
    (∀ (s : HookState) (svc : SvcOutcome), s.isPaused = false →
      resumeListening s svc = (false, s)) := by
  constructor
  · intro s svc h
    unfold pauseListening
    cases hl : s.isListening <;> cases hp : s.isPaused <;> simp_all
  · intro s svc h
    unfold resumeListening
    simp [h]

/-- C9, witness: on the idle hook state both calls are rejected no-ops. -/
theorem claim_c9_pause_resume_noop_witness :
    pauseListening hookIdle SvcOutcome.thrown = (false, hookIdle) ∧
    resumeListening hookIdle SvcOutcome.thrown = (false, hookIdle) :=
  ⟨claim_c9_pause_resume_noop.1 hookIdle SvcOutcome.thrown (by decide),
   claim_c9_pause_resume_noop.2 hookIdle SvcOutcome.thrown (by decide)⟩

/--
C10: whenever a service is installed, `stopListening` leaves the hook
neither listening nor paused and with an empty interim transcript, for every
possible service outcome; and when the service throws, the call swallows the
exception and returns `false`.
-/
theorem claim_c10_stop_forces_idle (s : HookState) (svc : SvcOutcome)
    (h : s.hasService = true) :
    (stopListening s svc).2.isListening = false ∧
    (stopListening s svc).2.isPaused = false ∧
    (stopListening s svc).2.currentTranscript = "" ∧
    (svc = SvcOutcome.thrown → (stopListening s svc).1 = false) := by
  unfold stopListening
  cases svc <;> simp [h]

/-- C10, witness: stopping a listening hook whose service throws still lands
in the idle, cleared state and reports `false`. -/
theorem claim_c10_stop_forces_idle_witness :
    hookListening.hasService = true ∧
    ((stopListening hookListening SvcOutcome.thrown).2.isListening = false ∧
     (stopListening hookListening SvcOutcome.thrown).2.isPaused = false ∧
     (stopListening hookListening SvcOutcome.thrown).2.currentTranscript = "" ∧
     (SvcOutcome.thrown = SvcOutcome.thrown →
       (stopListening hookListening SvcOutcome.thrown).1 = false)) :=
  ⟨rfl, claim_c10_stop_forces_idle hookListening SvcOutcome.thrown rfl⟩

end InterviewSummarizer
